import Mathlib

/-!
Shallow embedding of the MSS-AutoTeam automation engine (`main.py`):
roster validation, captain resolution, Mii page-selector navigation,
the lineup reordering loop, the "whodeyy" code-patch compiler, and the
memory-session traces of the `finalize` / `formation_code_rev` /
`generate_whodeyy_code` operations.

Python lists of `[char_id, batting_pos, fielding_pos]` triples are embedded
as lists of `Player` records over `ℤ` (Python integers are unbounded and
signed). `while` loops are embedded as fueled recursions; theorems below
establish that the chosen fuel is sufficient on the inputs the claims
quantify over, so the embedding agrees with the source there.
-/

/-- A roster entry `[char_id, batting_pos, fielding_pos]`. -/
structure Player where
  char : ℤ
  bat : ℤ
  field : ℤ
deriving DecidableEq, Repr

instance : Inhabited Player := ⟨⟨0, 0, 0⟩⟩

/-- Default player used for out-of-range `getD` reads (never hit on the
in-range accesses performed by the source). -/
def dp : Player := ⟨0, 0, 0⟩

/-- The captain table `captains = [0, 1, 2, 3, 4, 5, 6, 9, 10, 11, 17, 19]`. -/
def captains : List ℤ := [0, 1, 2, 3, 4, 5, 6, 9, 10, 11, 17, 19]

/-- `find_valid_captain`: scan the team, return the first character id that
is in the captain table, or `None`. -/
def find_valid_captain : List Player → Option ℤ
  | [] => none
  | p :: rest => if p.char ∈ captains then some p.char else find_valid_captain rest

/-- The Python set `set(range(9))`. -/
def range9Z : Finset ℤ := (Finset.range 9).image (fun n : ℕ => (n : ℤ))

/-- The list `[0, 1, ..., 8]` over `ℤ` (used to state permutation facts). -/
def range9L : List ℤ := (List.range 9).map (fun n : ℕ => (n : ℤ))

/-- Per-player checks of `validate_team_lineup`, accumulating the sets of
batting and fielding positions seen so far.  Players are records here, so the
raw shape check `len(player) != 3` of the source can never fire and has no
counterpart. -/
def validateLoop (cl : ℕ) (nm : String) : List Player → Finset ℤ → Finset ℤ → Except String (Finset ℤ × Finset ℤ)
  | [], bs, fs => Except.ok (bs, fs)
  | p :: rest, bs, fs =>
    if p.char < 0 ∨ (cl : ℤ) ≤ p.char then Except.error (nm ++ (": invalid character ID"))
    else if p.bat < 0 ∨ 8 < p.bat then Except.error (nm ++ (": invalid batting position"))
    else if p.bat ∈ bs then Except.error (nm ++ (": duplicate batting position"))
    else if p.field < 0 ∨ 8 < p.field then Except.error (nm ++ (": invalid fielding position"))
    else if p.field ∈ fs then Except.error (nm ++ (": duplicate fielding position"))
    else validateLoop cl nm rest (insert p.bat bs) (insert p.field fs)

/-- `validate_team_lineup(team, team_name, char_list)` with `cl = len(char_list)`,
returning the source's `(is_valid, error_message)` pair. -/
def validate_team_lineup (team : List Player) (nm : String) (cl : ℕ) : Bool × Option String :=
  match team with
  | [] => (false, some (nm ++ (": No team data")))
  | _ :: _ =>
    if team.length ≠ 9 then (false, some (nm ++ (": Expected 9 players")))
    else
      match validateLoop cl nm team ∅ ∅ with
      | Except.error e => (false, some e)
      | Except.ok (bs, fs) =>
        if bs ≠ range9Z then (false, some (nm ++ (": Missing batting position(s)")))
        else if fs ≠ range9Z then (false, some (nm ++ (": Missing fielding position(s)")))
        else (true, none)

/-- The Mii sub-list of a team: players with `char_id > 76`, in roster order
(`mii1list` / `mii2list` / `mlist` in the source). -/
def miisOf (team : List Player) : List Player := team.filter (fun p => 76 < p.char)

/-- One step of the position-correction loop of `generate_whodeyy_code`:
`while pos > 0 and pos <= len(miilist): pos = miilist[pos-1][1]`. -/
def fixStep (ml : List Player) (pos : ℤ) : ℤ :=
  if 0 < pos ∧ pos ≤ (ml.length : ℤ) then (ml.getD (pos - 1).toNat dp).bat else pos

/-- The position-correction loop itself, fueled.  `none` means the fuel ran
out while the loop guard still held. -/
def fixPosFuel (ml : List Player) : ℕ → ℤ → Option ℤ
  | 0, pos => if 0 < pos ∧ pos ≤ (ml.length : ℤ) then none else some pos
  | f + 1, pos =>
    if 0 < pos ∧ pos ≤ (ml.length : ℤ) then
      fixPosFuel ml f ((ml.getD (pos - 1).toNat dp).bat)
    else some pos

/-- Compiler emission state: the ordered `(address, word)` writes issued so
far, plus the source's `currLine` and `countline` counters. -/
structure GenSt where
  writes : List (ℕ × ℤ)
  currLine : ℕ
  countline : ℕ
deriving DecidableEq, Repr

/-- `DMM.write_word(currLine, w); currLine += 4` (no `countline` bump). -/
def wr (s : GenSt) (w : ℤ) : GenSt :=
  { s with writes := s.writes ++ [(s.currLine, w)], currLine := s.currLine + 4 }

/-- `DMM.write_word(currLine, w); currLine += 4; countline += 1`. -/
def wrC (s : GenSt) (w : ℤ) : GenSt :=
  { wr s w with countline := s.countline + 1 }

/-- The four instruction words emitted for one player of a team block.
A Mii player (`char_id > 76`) gets two no-ops plus a fielding store at the
running Mii-only batting slot `mp`; anyone else gets character and fielding
stores at the corrected position computed by the correction loop (fueled
with `len(miilist) + 1`, which the termination theorems show is enough on
validated teams). -/
def emitPlayer (ml : List Player) (p : Player) (mp : ℕ) (s : GenSt) : Option (ℕ × GenSt) :=
  if 76 < p.char then
    some (mp + 1,
      wrC (wrC (wrC (wrC s 0x60000000) 0x60000000) (0x39E00000 + p.field))
        (0x99E3000C + (mp : ℤ) * 0x10))
  else
    match fixPosFuel ml (ml.length + 1) p.bat with
    | none => none
    | some pos =>
      some (mp,
        wrC (wrC (wrC (wrC s (0x39E00000 + p.char)) (0x99E30001 + pos * 0x10))
          (0x39E00000 + p.field)) (0x99E3000C + pos * 0x10))

/-- The per-team emission loop of `generate_whodeyy_code` (`miipos` starts
at 1 at each call site). -/
def emitTeam (ml : List Player) : List Player → ℕ → GenSt → Option GenSt
  | [], _, s => some s
  | p :: rest, mp, s =>
    match emitPlayer ml p mp s with
    | none => none
    | some r => emitTeam ml rest r.1 r.2

/-- `while countline % 4 != 3: write 0x60000000` — fuel 4 always suffices
since the counter walks through all residues mod 4. -/
def padLoop : ℕ → GenSt → GenSt
  | 0, s => s
  | f + 1, s => if s.countline % 4 ≠ 3 then padLoop f (wrC s 0x60000000) else s

/-- `generate_whodeyy_code(self)` with `t1 = self.team1` (away) and
`t2 = self.team2` (home): returns the ordered word writes (the initial hook
write included, the final metadata write last) and the final `countline`. -/
def generate_whodeyy_code (t1 t2 : List Player) : Option (List (ℕ × ℤ) × ℕ) :=
  let s0 : GenSt := { writes := [(0x8006aed4, 0x4bf97324)], currLine := 0x800021f0, countline := 0 }
  let s1 := wrC (wrC (wr (wr s0 0xC206AED4) 0x00000000) 0x2C0E0001) 0x4182009C
  match emitTeam (miisOf t1) t1 1 s1 with
  | none => none
  | some s2 =>
    let s3 := wrC (wrC s2 0x39C00001) 0x48000098
    match emitTeam (miisOf t2) t2 1 s3 with
    | none => none
    | some s4 =>
      let s5 := wrC s4 0x39C00000
      let s6 := padLoop 4 s5
      let s7 := wrC s6 ((0x8006aed8 : ℤ) - (s6.currLine : ℤ) + 0x48000000)
      some (s7.writes ++ [(0x800021f4, ((s7.countline / 2 : ℕ) : ℤ))], s7.countline)

/-- Events of a memory session against the external client. -/
inductive Ev where
  | hook
  | unhook
  | readWord (a : ℤ)
  | writeWord (a v : ℤ)
  | writeByte (a v : ℤ)
deriving DecidableEq, Repr

/-- The memory-event trace of `generate_whodeyy_code`: `DMM.hook()` first,
then every word write in order, then `DMM.un_hook()`. -/
def generateTrace (t1 t2 : List Player) : Option (List Ev) :=
  (generate_whodeyy_code t1 t2).map
    (fun r => Ev.hook :: (r.1.map (fun aw => Ev.writeWord (aw.1 : ℤ) aw.2)) ++ [Ev.unhook])

/-- The captain value computed in `finalize` for one team: captain-table
index of the first batter's character if eligible, else of the first
eligible roster member, else of the configured default if eligible, else
the caller-specific fallback index. -/
def resolveCaptain (team : List Player) (dflt : ℤ) (fallback : ℤ) : ℤ :=
  if (team.headD dp).char ∈ captains then ((captains.indexOf (team.headD dp).char : ℕ) : ℤ)
  else
    match find_valid_captain team with
    | some c => ((captains.indexOf c : ℕ) : ℤ)
    | none => if dflt ∈ captains then ((captains.indexOf dflt : ℕ) : ℤ) else fallback

/-- `c1` in `finalize` (away team, fallback index 0). -/
def resolveCaptainAway (team : List Player) (dflt : ℤ) : ℤ := resolveCaptain team dflt 0

/-- `c2` in `finalize` (home team, fallback `1 if len(captains) > 1 else 0`). -/
def resolveCaptainHome (team : List Player) (dflt : ℤ) : ℤ :=
  resolveCaptain team dflt (if 1 < captains.length then 1 else 0)

/-- The memory-event trace of `finalize`: hook, three stadium bytes, two
captain bytes, four rule bytes — and no detach. -/
def finalizeTrace (t1 t2 : List Player) (stadium : ℤ × ℤ) (rules : List ℤ) (dA dH : ℤ) : List Ev :=
  [Ev.hook,
   Ev.writeByte 0x811f769d stadium.1, Ev.writeByte 0x811f769e stadium.2,
   Ev.writeByte 0x811f769f stadium.2,
   Ev.writeByte 0x811f76ac (resolveCaptainAway t1 dA),
   Ev.writeByte 0x811f76ad (resolveCaptainHome t2 dH),
   Ev.writeByte 0x80794328 (rules.getD 0 0), Ev.writeByte 0x80794329 (rules.getD 1 0),
   Ev.writeByte 0x8079432A (rules.getD 2 0), Ev.writeByte 0x8079432B (rules.getD 3 0)]

/-- One iteration of the `for i in range(9)` loop of `formation_code_rev`
(team-1 writes use the extra `-0x90` displacement). -/
def formationPair (reg3 : ℤ) (p q : Player) : List Ev :=
  (if p.char < 71 then [Ev.writeByte (reg3 + (p.bat * 0x10 + 0x01) - 0x90) p.char] else [])
  ++ [Ev.writeByte (reg3 + (p.bat * 0x10 + 0x0C) - 0x90) p.field]
  ++ (if q.char < 71 then [Ev.writeByte (reg3 + (q.bat * 0x10 + 0x01)) q.char] else [])
  ++ [Ev.writeByte (reg3 + (q.bat * 0x10 + 0x0C)) q.field]

/-- The memory-event trace of `formation_code_rev`, with `reg3` the word
read back from `0x806d121e`. -/
def formation_code_rev_trace (t1 t2 : List Player) (stadium : ℤ × ℤ) (reg3 : ℤ) : List Ev :=
  ([Ev.hook, Ev.readWord 0x806d121e,
    Ev.writeByte 0x811f769d stadium.1, Ev.writeByte 0x811f769e stadium.2,
    Ev.writeByte 0x811f769f stadium.2,
    Ev.writeByte 0x811f76ac (t1.headD dp).char, Ev.writeByte 0x811f76ad (t2.headD dp).char]
   ++ (t1.zip t2).flatMap (fun pq => formationPair reg3 pq.1 pq.2)) ++ [Ev.unhook]

/-- Abstract menu inputs: the arrow keys, the A and B buttons, and the
`'w'` settle wait of `execute`. -/
inductive Key where
  | up
  | down
  | left
  | right
  | a
  | b
  | wait
deriving DecidableEq, Repr

/-- The instruction-character dispatch of `execute` (unknown characters are
ignored, as in the source). -/
def charKey : Char → Option Key
  | 'u' => some Key.up
  | 'd' => some Key.down
  | 'l' => some Key.left
  | 'r' => some Key.right
  | 'a' => some Key.a
  | 'w' => some Key.wait
  | _ => none

/-- `execute(instructions)` as the key stream it emits. -/
def execute (s : String) : List Key := s.toList.filterMap charKey

/-- The `while v >= 10` page-advance loop of `handleMiis`, fueled (fuel `v`
always suffices since `v` drops by 10 each turn): returns the final
remainder `v`, the number of page turns, and the keys emitted. -/
def pageLoopF : ℕ → ℕ → ℕ × ℕ × List Key
  | 0, v => (v, 0, [])
  | f + 1, v =>
    if 10 ≤ v then
      let r := pageLoopF f (v - 10)
      (r.1, r.2.1 + 1, execute ("rrrrralllll") ++ r.2.2)
    else (v, 0, [])

/-- The page-advance loop run on a target index `v`. -/
def pageLoop (v : ℕ) : ℕ × ℕ × List Key := pageLoopF v v

/-- The guard of the anchor-correction branch of `handleMiis`:
`target_page == last_page and turns == target_page`. -/
def handleMiiAnchor (total idx : ℕ) : Bool :=
  (idx / 10 == (total - 1) / 10) && ((pageLoop idx).2.1 == idx / 10)

/-- The key stream `handleMiis` emits for one target Mii index `idx`:
open the selector, page forward, possibly the four-key anchor correction,
then the within-page cursor moves, confirm, and cancel. -/
def handleMiiIndex (total idx : ℕ) : List Key :=
  execute ("awllllll") ++ (pageLoop idx).2.2
  ++ (if handleMiiAnchor total idx then [Key.left, Key.left, Key.left, Key.up] else [])
  ++ List.replicate ((pageLoop idx).1 % 5) Key.right
  ++ (if 5 ≤ (pageLoop idx).1 then [Key.down] else [])
  ++ [Key.a, Key.b]

/-- `handleMiis(arr, dir, total_miis)` as the key stream it emits: the
per-index selections, then the fixed return sequence (`"uuadd"` for the
away team, `"dauu"` for the home team). -/
def handleMiis (arr : List (ℕ × ℤ)) (dir : ℕ) (total : ℕ) : List Key :=
  (arr.flatMap (fun p => handleMiiIndex total p.1))
  ++ (if dir = 0 then execute ("uuadd") else execute ("dauu"))

/-- Modelled from the spec: mirroring a direction exchanges up and down. -/
def mirrorKey : Key → Key
  | Key.up => Key.down
  | Key.down => Key.up
  | k => k

/-- `temp = l[i]; l[i] = l[j]; l[j] = temp`. -/
def swapModel (l : List Player) (i j : ℕ) : List Player :=
  (l.set i (l.getD j dp)).set j (l.getD i dp)

/-- The main loop of `lineup_code_rev`, fueled.  Each iteration picks up at
column `i+1`, drops at column `targ = mlist[i][1]` (both recorded in `sw`),
and either mirrors the widget's swap in the local model without advancing
`i` (counted in `sc`) or advances `i`.  The cursor belief `pos` ends each
iteration at `targ`. -/
def lineupLoopF : ℕ → List Player → ℤ → ℕ → List (ℤ × ℤ) → ℕ → Option (List Player × List (ℤ × ℤ) × ℕ)
  | 0, ml, _, i, sw, sc => if i < ml.length then none else some (ml, sw, sc)
  | f + 1, ml, _, i, sw, sc =>
    if i < ml.length then
      let targ := (ml.getD i dp).bat
      if (i : ℤ) + 1 < targ ∧ targ ≤ (ml.length : ℤ) then
        lineupLoopF f (swapModel ml i (targ - 1).toNat) targ i (sw ++ [((i : ℤ) + 1, targ)]) (sc + 1)
      else
        lineupLoopF f ml targ (i + 1) (sw ++ [((i : ℤ) + 1, targ)]) sc
    else some (ml, sw, sc)

/-- `lineup_code_rev(team)`: run the reorder loop on the Mii sub-list,
returning the final local model, the (pick, drop) column pairs emitted, and
the number of model-swap iterations.  Fuel `2 * len + 1` is shown sufficient
on validated teams by the termination theorem. -/
def lineup_code_rev (team : List Player) : Option (List Player × List (ℤ × ℤ) × ℕ) :=
  lineupLoopF (2 * (miisOf team).length + 1) (miisOf team) 0 0 [] 0

/-- Swap the occupants of two columns of the lineup widget. -/
def swapAt (ui : List ℤ) (a b : ℕ) : List ℤ := (ui.set a (ui.getD b 0)).set b (ui.getD a 0)

/-- Modelled from the spec: swap-on-drop widget semantics — each pick-up at
one column followed by a drop at another swaps the two occupants. -/
def applySwaps (ui : List ℤ) (sw : List (ℤ × ℤ)) : List ℤ :=
  sw.foldl (fun u s => swapAt u s.1.toNat s.2.toNat) ui

/-- A Mii-free validated team (characters 0..8, identity batting and
fielding orders). -/
def teamA : List Player :=
  [⟨0, 0, 0⟩, ⟨1, 1, 1⟩, ⟨2, 2, 2⟩, ⟨3, 3, 3⟩, ⟨4, 4, 4⟩,
   ⟨5, 5, 5⟩, ⟨6, 6, 6⟩, ⟨7, 7, 7⟩, ⟨8, 8, 8⟩]

/-- A validated team whose Mii sub-list is `A = 77` (batting 2), `B = 78`
(batting 0), `C = 79` (batting 1), in that roster order. -/
def teamC3 : List Player :=
  [⟨0, 3, 0⟩, ⟨77, 2, 1⟩, ⟨78, 0, 2⟩, ⟨79, 1, 3⟩, ⟨1, 4, 4⟩,
   ⟨2, 5, 5⟩, ⟨3, 6, 6⟩, ⟨4, 7, 7⟩, ⟨5, 8, 8⟩]

/-- The lineup widget at the point `lineup_code_rev(teamC3)` runs: the three
Miis sit in columns 1..3 (where the compiled patch placed them), fixed
characters elsewhere. -/
def uiC3 : List ℤ := [10, 77, 78, 79, 11, 12, 13, 14, 15]

/-- A validated team whose first batter has character id 9 (Bowser). -/
def teamC7 : List Player :=
  [⟨9, 0, 0⟩, ⟨20, 1, 1⟩, ⟨21, 2, 2⟩, ⟨22, 3, 3⟩, ⟨23, 4, 4⟩,
   ⟨24, 5, 5⟩, ⟨25, 6, 6⟩, ⟨26, 7, 7⟩, ⟨27, 8, 8⟩]

/-- Number of slots of the reorder model that already hold an entry whose
batting order equals its (1-based) column — the termination measure of the
`lineup_code_rev` loop. -/
def goodCount (ml : List Player) : ℕ :=
  ((Finset.range ml.length).filter (fun j => (ml.getD j dp).bat = (j : ℤ) + 1)).card

/-! ### Helper lemmas -/

theorem find_valid_captain_mem : ∀ (t : List Player) (c : ℤ), find_valid_captain t = some c → c ∈ captains := by
  intro t
  induction t with
  | nil => intro c h; simp [find_valid_captain] at h
  | cons p rest ih =>
    intro c h
    by_cases hp : p.char ∈ captains
    · simp [find_valid_captain, hp] at h
      exact h ▸ hp
    · simp [find_valid_captain, hp] at h
      exact ih c h

theorem indexOf_captains_le (x : ℤ) (hx : x ∈ captains) : ((captains.indexOf x : ℕ) : ℤ) ≤ 11 := by
  have h : captains.indexOf x < captains.length := List.indexOf_lt_length.mpr hx
  have h12 : captains.length = 12 := by decide
  omega

theorem resolveCaptain_bounds (t : List Player) (d fb : ℤ) (hfb0 : 0 ≤ fb) (hfb1 : fb ≤ 11) :
    0 ≤ resolveCaptain t d fb ∧ resolveCaptain t d fb ≤ 11 := by
  unfold resolveCaptain
  by_cases h0 : (t.headD dp).char ∈ captains
  · simp only [h0, if_true]
    exact ⟨Int.natCast_nonneg _, indexOf_captains_le _ h0⟩
  · simp only [h0, if_false]
    cases hf : find_valid_captain t with
    | some c =>
      exact ⟨Int.natCast_nonneg _, indexOf_captains_le _ (find_valid_captain_mem t c hf)⟩
    | none =>
      by_cases hd : d ∈ captains
      · simp only [hd, if_true]
        exact ⟨Int.natCast_nonneg _, indexOf_captains_le _ hd⟩
      · simp only [hd, if_false]
        exact ⟨hfb0, hfb1⟩

theorem pageLoopF_turns : ∀ f v : ℕ, v ≤ f → (pageLoopF f v).2.1 = v / 10 := by
  intro f
  induction f with
  | zero =>
    intro v hv
    have : v = 0 := by omega
    subst this
    rfl
  | succ f ih =>
    intro v hv
    by_cases h : 10 ≤ v
    · have hrec := ih (v - 10) (by omega)
      simp only [pageLoopF, h, if_true]
      rw [hrec]
      omega
    · simp only [pageLoopF, h, if_false]
      omega

theorem pageLoop_turns (v : ℕ) : (pageLoop v).2.1 = v / 10 :=
  pageLoopF_turns v v le_rfl

/-! ### Claim theorems -/

/-- C3: on the Mii sub-list `[(A, 2), (B, 0), (C, 1)]` (ids 77, 78, 79,
initial UI order A, B, C in columns 1..3), `lineup_code_rev` terminates
with one model swap, and replaying its pick/drop pairs under swap-on-drop
semantics leaves the UI reading B, C, A — each Mii in the column equal to
its batting order. -/
theorem c3_lineup_reorder_example :
    lineup_code_rev teamC3 =
      some ([⟨78, 0, 2⟩, ⟨77, 2, 1⟩, ⟨79, 1, 3⟩], [(1, 2), (1, 0), (2, 2), (3, 1)], 1)
    ∧ applySwaps uiC3 [(1, 2), (1, 0), (2, 2), (3, 1)] = [78, 79, 77, 10, 11, 12, 13, 14, 15]
    ∧ (applySwaps uiC3 [(1, 2), (1, 0), (2, 2), (3, 1)]).filter (fun x => 77 ≤ x) = [78, 79, 77]
    ∧ (applySwaps uiC3 [(1, 2), (1, 0), (2, 2), (3, 1)]).indexOf 77 = 2
    ∧ (applySwaps uiC3 [(1, 2), (1, 0), (2, 2), (3, 1)]).indexOf 78 = 0
    ∧ (applySwaps uiC3 [(1, 2), (1, 0), (2, 2), (3, 1)]).indexOf 79 = 1 := by
  refine ⟨by decide, by decide, by decide, by decide, by decide, by decide⟩

/-- C5: the anchor-correction branch of `handleMiis` fires exactly when the
target page equals the registry's last page and the performed page turns
equal the target page; the page loop always performs `idx / 10` turns, the
branch fires for `total = 10, idx = 9` and not for `total = 25, idx = 9`,
and the emitted key stream contains the three-lefts-one-up correction
exactly when the branch fires. -/
theorem c5_mii_anchor_condition :
    (∀ total idx : ℕ, 1 ≤ total →
      (handleMiiAnchor total idx = true ↔
        (idx / 10 = (total - 1) / 10 ∧ (pageLoop idx).2.1 = idx / 10)))
    ∧ (∀ idx : ℕ, (pageLoop idx).2.1 = idx / 10)
    ∧ handleMiiAnchor 10 9 = true ∧ (10 - 1) / 10 = 0 ∧ (pageLoop 9).2.1 = 0
    ∧ handleMiiAnchor 25 9 = false ∧ (25 - 1) / 10 = 2
    ∧ (∀ total idx : ℕ, ∃ pre post, handleMiiIndex total idx =
        pre ++ (if handleMiiAnchor total idx then [Key.left, Key.left, Key.left, Key.up] else [])
          ++ post) := by
  refine ⟨?_, pageLoop_turns, by decide, by decide, by decide, by decide, by decide, ?_⟩
  · intro total idx _
    simp [handleMiiAnchor]
  · intro total idx
    exact ⟨execute ("awllllll") ++ (pageLoop idx).2.2,
      List.replicate ((pageLoop idx).1 % 5) Key.right
        ++ (if 5 ≤ (pageLoop idx).1 then [Key.down] else []) ++ [Key.a, Key.b],
      by simp [handleMiiIndex]⟩

theorem c5_mii_anchor_condition_witness :
    (1 ≤ 10)
    ∧ (handleMiiAnchor 10 9 = true ↔
        (9 / 10 = (10 - 1) / 10 ∧ (pageLoop 9).2.1 = 9 / 10)) :=
  ⟨by decide, c5_mii_anchor_condition.1 10 9 (by decide)⟩

/-- C9 counterexample: the home-team return sequence of `handleMiis` is the
4-step `"dauu"`, not a 5-step sequence and not the up/down mirror of the
away-team sequence `"uuadd"`. -/
theorem c9_return_sequence_counterexample :
    (handleMiis [] 1 1).length = 4 ∧ ¬ (handleMiis [] 1 1).length = 5
    ∧ ¬ handleMiis [] 1 1 = (handleMiis [] 0 1).map mirrorKey := by
  refine ⟨by decide, by decide, by decide⟩

/-- C9 (amended): after processing all target indices, `handleMiis` emits a
fixed return sequence — the 5 steps up, up, A, down, down for the away team
and the 4 steps down, A, up, up for the home team. -/
theorem c9_return_sequence_amended :
    ∀ (arr : List (ℕ × ℤ)) (total : ℕ), ∃ body,
      handleMiis arr 0 total = body ++ [Key.up, Key.up, Key.a, Key.down, Key.down]
      ∧ handleMiis arr 1 total = body ++ [Key.down, Key.a, Key.up, Key.up] := by
  intro arr total
  exact ⟨arr.flatMap (fun p => handleMiiIndex total p.1), rfl, rfl⟩

/-- C7: captain resolution follows the stated priority — the first batter's
id if it is in the table, else the first eligible roster member, else the
configured default if eligible, else 0 (away) / 1 (home, 0 for a short
table); and a first batter with character id 9 resolves to table index 7. -/
theorem c7_captain_priority :
    (∀ (t : List Player) (dA dH : ℤ),
      ((t.headD dp).char ∈ captains →
        resolveCaptainAway t dA = ((captains.indexOf (t.headD dp).char : ℕ) : ℤ)
        ∧ resolveCaptainHome t dH = ((captains.indexOf (t.headD dp).char : ℕ) : ℤ))
      ∧ ((t.headD dp).char ∉ captains → ∀ c, find_valid_captain t = some c →
        resolveCaptainAway t dA = ((captains.indexOf c : ℕ) : ℤ)
        ∧ resolveCaptainHome t dH = ((captains.indexOf c : ℕ) : ℤ))
      ∧ ((t.headD dp).char ∉ captains → find_valid_captain t = none →
        resolveCaptainAway t dA = (if dA ∈ captains then ((captains.indexOf dA : ℕ) : ℤ) else 0)
        ∧ resolveCaptainHome t dH = (if dH ∈ captains then ((captains.indexOf dH : ℕ) : ℤ)
            else if 1 < captains.length then 1 else 0)))
    ∧ resolveCaptainAway teamC7 5 = 7 ∧ captains.getD 7 0 = 9 := by
  refine ⟨?_, by decide, by decide⟩
  intro t dA dH
  refine ⟨?_, ?_, ?_⟩
  · intro h
    constructor <;>
      simp only [resolveCaptainAway, resolveCaptainHome, resolveCaptain, if_pos h]
  · intro h c hf
    constructor <;>
      simp only [resolveCaptainAway, resolveCaptainHome, resolveCaptain, if_neg h, hf]
  · intro h hf
    constructor <;>
      simp only [resolveCaptainAway, resolveCaptainHome, resolveCaptain, if_neg h, hf]

theorem c7_captain_priority_witness :
    (teamC7.headD dp).char ∈ captains
    ∧ resolveCaptainAway teamC7 5 = ((captains.indexOf (teamC7.headD dp).char : ℕ) : ℤ) :=
  ⟨by decide, ((c7_captain_priority.1 teamC7 5 5).1 (by decide)).1⟩

/-- C10: for all teams and configured defaults, the two captain bytes
`finalize` writes at `0x811f76ac` / `0x811f76ad` are valid indices into the
12-entry captain table — integers in `[0, 11]`, never a raw character id
out of that range and never the sentinel `-1`. -/
theorem c10_captain_bytes_in_range :
    ∀ (t1 t2 : List Player) (stadium : ℤ × ℤ) (rules : List ℤ) (dA dH : ℤ),
      (0 ≤ resolveCaptainAway t1 dA ∧ resolveCaptainAway t1 dA ≤ 11)
      ∧ (0 ≤ resolveCaptainHome t2 dH ∧ resolveCaptainHome t2 dH ≤ 11)
      ∧ (finalizeTrace t1 t2 stadium rules dA dH).get? 4
          = some (Ev.writeByte 0x811f76ac (resolveCaptainAway t1 dA))
      ∧ (finalizeTrace t1 t2 stadium rules dA dH).get? 5
          = some (Ev.writeByte 0x811f76ad (resolveCaptainHome t2 dH)) := by
  intro t1 t2 stadium rules dA dH
  refine ⟨resolveCaptain_bounds t1 dA 0 (by decide) (by decide), ?_, rfl, rfl⟩
  have h : (if 1 < captains.length then (1 : ℤ) else 0) = 1 := by decide
  unfold resolveCaptainHome
  rw [h]
  exact resolveCaptain_bounds t2 dH 1 (by decide) (by decide)

/-- C8 counterexample: `finalize` attaches but never detaches — its memory
trace at a concrete input contains `hook` yet no `unhook`, so not every
memory-writing operation brackets its writes with attach/detach. -/
theorem c8_bracketing_counterexample :
    (finalizeTrace teamA teamA (0, 0) [9, 1, 1, 0] 0 1).head? = some Ev.hook
    ∧ Ev.unhook ∉ finalizeTrace teamA teamA (0, 0) [9, 1, 1, 0] 0 1 := by
  refine ⟨by decide, by decide⟩

/-- C8 (amended): `generate_whodeyy_code` and `formation_code_rev` bracket
their whole write batch between an attach and a detach, and `finalize`
attaches before its first write but never detaches. -/
theorem c8_bracketing_amended :
    (∀ (t1 t2 : List Player) (stadium : ℤ × ℤ) (rules : List ℤ) (dA dH : ℤ),
      (finalizeTrace t1 t2 stadium rules dA dH).head? = some Ev.hook
      ∧ Ev.unhook ∉ finalizeTrace t1 t2 stadium rules dA dH)
    ∧ (∀ (t1 t2 : List Player) (stadium : ℤ × ℤ) (reg3 : ℤ),
      (formation_code_rev_trace t1 t2 stadium reg3).head? = some Ev.hook
      ∧ (formation_code_rev_trace t1 t2 stadium reg3).getLast? = some Ev.unhook)
    ∧ (∀ (t1 t2 : List Player) (tr : List Ev), generateTrace t1 t2 = some tr →
      tr.head? = some Ev.hook ∧ tr.getLast? = some Ev.unhook) := by
  refine ⟨?_, ?_, ?_⟩
  · intro t1 t2 stadium rules dA dH
    refine ⟨rfl, ?_⟩
    intro hmem
    simp [finalizeTrace] at hmem
  · intro t1 t2 stadium reg3
    constructor
    · simp [formation_code_rev_trace]
    · exact List.getLast?_concat _
  · intro t1 t2 tr htr
    simp only [generateTrace, Option.map_eq_some'] at htr
    obtain ⟨r, _, hr⟩ := htr
    subst hr
    exact ⟨rfl, List.getLast?_concat _⟩

theorem c8_bracketing_amended_witness :
    ∃ tr, generateTrace teamA teamA = some tr
      ∧ tr.head? = some Ev.hook ∧ tr.getLast? = some Ev.unhook := by
  obtain ⟨tr, htr⟩ := Option.isSome_iff_exists.mp
    (show (generateTrace teamA teamA).isSome = true by decide)
  exact ⟨tr, htr, c8_bracketing_amended.2.2 teamA teamA tr htr⟩

theorem validateLoop_ok_sets (cl : ℕ) (nm : String) :
    ∀ (l : List Player) (bs fs : Finset ℤ) (r : Finset ℤ × Finset ℤ),
      validateLoop cl nm l bs fs = Except.ok r →
      r.1 = bs ∪ (l.map Player.bat).toFinset ∧ r.2 = fs ∪ (l.map Player.field).toFinset := by
  intro l
  induction l with
  | nil =>
    intro bs fs r h
    simp only [validateLoop, Except.ok.injEq] at h
    subst h
    simp
  | cons p rest ih =>
    intro bs fs r h
    simp only [validateLoop] at h
    by_cases c1 : p.char < 0 ∨ (cl : ℤ) ≤ p.char
    · rw [if_pos c1] at h; exact absurd h (by simp)
    rw [if_neg c1] at h
    by_cases c2 : p.bat < 0 ∨ 8 < p.bat
    · rw [if_pos c2] at h; exact absurd h (by simp)
    rw [if_neg c2] at h
    by_cases c3 : p.bat ∈ bs
    · rw [if_pos c3] at h; exact absurd h (by simp)
    rw [if_neg c3] at h
    by_cases c4 : p.field < 0 ∨ 8 < p.field
    · rw [if_pos c4] at h; exact absurd h (by simp)
    rw [if_neg c4] at h
    by_cases c5 : p.field ∈ fs
    · rw [if_pos c5] at h; exact absurd h (by simp)
    rw [if_neg c5] at h
    obtain ⟨h1, h2⟩ := ih _ _ r h
    constructor
    · rw [h1]
      simp [List.toFinset_cons, Finset.insert_union, Finset.union_insert]
    · rw [h2]
      simp [List.toFinset_cons, Finset.insert_union, Finset.union_insert]

theorem validateLoop_ok_props (cl : ℕ) (nm : String) :
    ∀ (l : List Player) (bs fs : Finset ℤ) (r : Finset ℤ × Finset ℤ),
      validateLoop cl nm l bs fs = Except.ok r →
      (∀ p ∈ l, ¬(p.char < 0 ∨ (cl : ℤ) ≤ p.char))
      ∧ (∀ p ∈ l, 0 ≤ p.bat ∧ p.bat ≤ 8) ∧ (∀ p ∈ l, 0 ≤ p.field ∧ p.field ≤ 8)
      ∧ (l.map Player.bat).Nodup ∧ (∀ x ∈ l.map Player.bat, x ∉ bs)
      ∧ (l.map Player.field).Nodup ∧ (∀ x ∈ l.map Player.field, x ∉ fs) := by
  intro l
  induction l with
  | nil =>
    intro bs fs r _
    simp
  | cons p rest ih =>
    intro bs fs r h
    simp only [validateLoop] at h
    by_cases c1 : p.char < 0 ∨ (cl : ℤ) ≤ p.char
    · rw [if_pos c1] at h; exact absurd h (by simp)
    rw [if_neg c1] at h
    by_cases c2 : p.bat < 0 ∨ 8 < p.bat
    · rw [if_pos c2] at h; exact absurd h (by simp)
    rw [if_neg c2] at h
    by_cases c3 : p.bat ∈ bs
    · rw [if_pos c3] at h; exact absurd h (by simp)
    rw [if_neg c3] at h
    by_cases c4 : p.field < 0 ∨ 8 < p.field
    · rw [if_pos c4] at h; exact absurd h (by simp)
    rw [if_neg c4] at h
    by_cases c5 : p.field ∈ fs
    · rw [if_pos c5] at h; exact absurd h (by simp)
    rw [if_neg c5] at h
    obtain ⟨i1, i2, i3, i4, i5, i6, i7⟩ := ih _ _ r h
    refine ⟨?_, ?_, ?_, ?_, ?_, ?_, ?_⟩
    · intro q hq
      rcases List.mem_cons.mp hq with hq | hq
      · exact hq ▸ c1
      · exact i1 q hq
    · intro q hq
      rcases List.mem_cons.mp hq with hq | hq
      · subst hq; omega
      · exact i2 q hq
    · intro q hq
      rcases List.mem_cons.mp hq with hq | hq
      · subst hq; omega
      · exact i3 q hq
    · rw [List.map_cons, List.nodup_cons]
      refine ⟨fun hmem => ?_, i4⟩
      exact (i5 p.bat hmem) (Finset.mem_insert_self _ _)
    · intro x hx
      rcases List.mem_cons.mp hx with hx | hx
      · exact hx ▸ c3
      · exact fun hxbs => (i5 x hx) (Finset.mem_insert_of_mem hxbs)
    · rw [List.map_cons, List.nodup_cons]
      refine ⟨fun hmem => ?_, i6⟩
      exact (i7 p.field hmem) (Finset.mem_insert_self _ _)
    · intro x hx
      rcases List.mem_cons.mp hx with hx | hx
      · exact hx ▸ c5
      · exact fun hxfs => (i7 x hx) (Finset.mem_insert_of_mem hxfs)

theorem validateLoop_ok_exists (cl : ℕ) (nm : String) :
    ∀ (l : List Player) (bs fs : Finset ℤ),
      (∀ p ∈ l, ¬(p.char < 0 ∨ (cl : ℤ) ≤ p.char)) →
      (∀ p ∈ l, 0 ≤ p.bat ∧ p.bat ≤ 8) → (∀ p ∈ l, 0 ≤ p.field ∧ p.field ≤ 8) →
      (l.map Player.bat).Nodup → (∀ x ∈ l.map Player.bat, x ∉ bs) →
      (l.map Player.field).Nodup → (∀ x ∈ l.map Player.field, x ∉ fs) →
      ∃ r, validateLoop cl nm l bs fs = Except.ok r := by
  intro l
  induction l with
  | nil =>
    intro bs fs _ _ _ _ _ _ _
    exact ⟨(bs, fs), rfl⟩
  | cons p rest ih =>
    intro bs fs h1 h2 h3 h4 h5 h6 h7
    have c1 : ¬(p.char < 0 ∨ (cl : ℤ) ≤ p.char) := h1 p (List.mem_cons_self p rest)
    have c2 : ¬(p.bat < 0 ∨ 8 < p.bat) := by
      have := h2 p (List.mem_cons_self p rest); omega
    have c3 : p.bat ∉ bs := h5 p.bat (by simp)
    have c4 : ¬(p.field < 0 ∨ 8 < p.field) := by
      have := h3 p (List.mem_cons_self p rest); omega
    have c5 : p.field ∉ fs := h7 p.field (by simp)
    rw [List.map_cons, List.nodup_cons] at h4 h6
    obtain ⟨r, hr⟩ := ih (insert p.bat bs) (insert p.field fs)
      (fun q hq => h1 q (List.mem_cons_of_mem p hq))
      (fun q hq => h2 q (List.mem_cons_of_mem p hq))
      (fun q hq => h3 q (List.mem_cons_of_mem p hq))
      h4.2
      (by
        intro x hx
        rw [Finset.mem_insert]
        push_neg
        exact ⟨fun hxe => h4.1 (hxe ▸ hx), h5 x (List.mem_cons_of_mem _ hx)⟩)
      h6.2
      (by
        intro x hx
        rw [Finset.mem_insert]
        push_neg
        exact ⟨fun hxe => h6.1 (hxe ▸ hx), h7 x (List.mem_cons_of_mem _ hx)⟩)
    refine ⟨r, ?_⟩
    simp only [validateLoop, if_neg c1, if_neg c2, if_neg c3, if_neg c4, if_neg c5]
    exact hr

theorem range9L_nodup : range9L.Nodup := by decide

theorem range9L_toFinset : range9L.toFinset = range9Z := by decide

theorem range9L_bounds : ∀ x ∈ range9L, 0 ≤ x ∧ x ≤ 8 := by decide

theorem validate_shape (team : List Player) (nm : String) (cl : ℕ) :
    validate_team_lineup team nm cl = (true, none)
    ∨ ∃ msg, validate_team_lineup team nm cl = (false, some msg) := by
  cases team with
  | nil => exact Or.inr ⟨_, rfl⟩
  | cons q rest =>
    simp only [validate_team_lineup]
    by_cases hlen : (q :: rest).length ≠ 9
    · rw [if_pos hlen]; exact Or.inr ⟨_, rfl⟩
    rw [if_neg hlen]
    cases hloop : validateLoop cl nm (q :: rest) ∅ ∅ with
    | error e => exact Or.inr ⟨_, rfl⟩
    | ok r =>
      rcases r with ⟨bs, fs⟩
      dsimp only
      by_cases hbs : bs ≠ range9Z
      · rw [if_pos hbs]; exact Or.inr ⟨_, rfl⟩
      rw [if_neg hbs]
      by_cases hfs : fs ≠ range9Z
      · rw [if_pos hfs]; exact Or.inr ⟨_, rfl⟩
      rw [if_neg hfs]
      exact Or.inl rfl

/-- C6: for teams of well-formed triples whose character ids are all in
`[0, len(charList) - 1]`, `validate_team_lineup` succeeds exactly when the
team has 9 entries whose batting orders and fielding positions each form a
permutation of `{0..8}`; on failure it returns a reason string.  (The
function is a pure one in this embedding, matching the source's
side-effect-free validation.) -/
theorem c6_validate_iff :
    ∀ (team : List Player) (nm : String) (cl : ℕ),
      (∀ p ∈ team, 0 ≤ p.char ∧ p.char < (cl : ℤ)) →
      (((validate_team_lineup team nm cl).1 = true ↔
        (team.length = 9 ∧ (team.map Player.bat).Perm range9L
          ∧ (team.map Player.field).Perm range9L))
      ∧ ((validate_team_lineup team nm cl).1 = false →
          ∃ msg, (validate_team_lineup team nm cl).2 = some msg)) := by
  intro team nm cl hchar
  constructor
  · constructor
    · intro htrue
      cases team with
      | nil => simp [validate_team_lineup] at htrue
      | cons q rest =>
        simp only [validate_team_lineup] at htrue
        by_cases hlen : (q :: rest).length ≠ 9
        · rw [if_pos hlen] at htrue; simp at htrue
        rw [if_neg hlen] at htrue
        cases hloop : validateLoop cl nm (q :: rest) ∅ ∅ with
        | error e => rw [hloop] at htrue; simp at htrue
        | ok r =>
          rcases r with ⟨bs, fs⟩
          rw [hloop] at htrue
          dsimp only at htrue
          by_cases hbs : bs ≠ range9Z
          · rw [if_pos hbs] at htrue; simp at htrue
          rw [if_neg hbs] at htrue
          by_cases hfs : fs ≠ range9Z
          · rw [if_pos hfs] at htrue; simp at htrue
          push_neg at hbs hfs hlen
          obtain ⟨hb, hf⟩ := validateLoop_ok_sets cl nm _ _ _ _ hloop
          obtain ⟨p1, p2, p3, p4, p5, p6, p7⟩ := validateLoop_ok_props cl nm _ _ _ _ hloop
          simp only [Finset.empty_union] at hb hf
          refine ⟨hlen, ?_, ?_⟩
          · refine List.perm_of_nodup_nodup_toFinset_eq p4 range9L_nodup ?_
            rw [range9L_toFinset, ← hb, hbs]
          · refine List.perm_of_nodup_nodup_toFinset_eq p6 range9L_nodup ?_
            rw [range9L_toFinset, ← hf, hfs]
    · intro hperm
      obtain ⟨hlen, hbp, hfp⟩ := hperm
      cases team with
      | nil => simp at hlen
      | cons q rest =>
        have hnodb : ((q :: rest).map Player.bat).Nodup := hbp.nodup_iff.mpr range9L_nodup
        have hnodf : ((q :: rest).map Player.field).Nodup := hfp.nodup_iff.mpr range9L_nodup
        obtain ⟨r, hr⟩ := validateLoop_ok_exists cl nm (q :: rest) ∅ ∅
          (by
            intro p hp
            have := hchar p hp
            push_neg
            omega)
          (fun p hp => range9L_bounds p.bat (hbp.mem_iff.mp (List.mem_map_of_mem _ hp)))
          (fun p hp => range9L_bounds p.field (hfp.mem_iff.mp (List.mem_map_of_mem _ hp)))
          hnodb (fun x _ => Finset.not_mem_empty x)
          hnodf (fun x _ => Finset.not_mem_empty x)
        rcases r with ⟨bs, fs⟩
        obtain ⟨hb, hf⟩ := validateLoop_ok_sets cl nm _ _ _ _ hr
        simp only [Finset.empty_union] at hb hf
        have hbs : bs = range9Z := by
          rw [hb, List.toFinset_eq_of_perm _ _ hbp, range9L_toFinset]
        have hfs : fs = range9Z := by
          rw [hf, List.toFinset_eq_of_perm _ _ hfp, range9L_toFinset]
        simp only [validate_team_lineup]
        rw [if_neg (show ¬(q :: rest).length ≠ 9 by omega), hr]
        dsimp only
        rw [if_neg (show ¬bs ≠ range9Z by rw [hbs]; exact fun h => h rfl),
          if_neg (show ¬fs ≠ range9Z by rw [hfs]; exact fun h => h rfl)]
  · intro hfalse
    rcases validate_shape team nm cl with h | ⟨m, h⟩
    · rw [h] at hfalse; simp at hfalse
    · rw [h]; exact ⟨m, rfl⟩

theorem c6_validate_iff_witness :
    (∀ p ∈ teamA, 0 ≤ p.char ∧ p.char < (77 : ℤ))
    ∧ ((validate_team_lineup teamA ("Away") 77).1 = true ↔
        (teamA.length = 9 ∧ (teamA.map Player.bat).Perm range9L
          ∧ (teamA.map Player.field).Perm range9L)) :=
  ⟨by decide, (c6_validate_iff teamA ("Away") 77 (by decide)).1⟩

theorem fixPosFuel_none_iter (ml : List Player) :
    ∀ (f : ℕ) (pos : ℤ), fixPosFuel ml f pos = none →
      ∀ k ≤ f, 0 < (fixStep ml)^[k] pos ∧ (fixStep ml)^[k] pos ≤ (ml.length : ℤ) := by
  intro f
  induction f with
  | zero =>
    intro pos h k hk
    have hk0 : k = 0 := by omega
    subst hk0
    simp only [Function.iterate_zero, id]
    by_cases hc : 0 < pos ∧ pos ≤ (ml.length : ℤ)
    · exact hc
    · exfalso
      rw [show fixPosFuel ml 0 pos = some pos from by simp [fixPosFuel, hc]] at h
      exact Option.noConfusion h
  | succ f ih =>
    intro pos h k hk
    by_cases hc : 0 < pos ∧ pos ≤ (ml.length : ℤ)
    · rw [show fixPosFuel ml (f + 1) pos
          = fixPosFuel ml f ((ml.getD (pos - 1).toNat dp).bat) from by
        simp [fixPosFuel, hc]] at h
      cases k with
      | zero => simpa using hc
      | succ k =>
        have hstep : fixStep ml pos = (ml.getD (pos - 1).toNat dp).bat := by
          simp [fixStep, hc]
        rw [Function.iterate_succ_apply, hstep]
        exact ih _ h k (by omega)
    · exfalso
      rw [show fixPosFuel ml (f + 1) pos = some pos from by simp [fixPosFuel, hc]] at h
      exact Option.noConfusion h

theorem getD_bat_inj (ml : List Player) (hn : (ml.map Player.bat).Nodup) :
    ∀ a b : ℕ, a < ml.length → b < ml.length →
      (ml.getD a dp).bat = (ml.getD b dp).bat → a = b := by
  intro a b ha hb heq
  have ha' : a < (ml.map Player.bat).length := by simpa using ha
  have hb' : b < (ml.map Player.bat).length := by simpa using hb
  have h1 : (ml.map Player.bat)[a] = (ml.map Player.bat)[b] := by
    rw [List.getElem_map, List.getElem_map]
    rw [List.getD_eq_getElem ml dp ha, List.getD_eq_getElem ml dp hb] at heq
    exact heq
  exact hn.getElem_inj_iff.mp h1

theorem getD_bat_mem (ml : List Player) (a : ℕ) (ha : a < ml.length) :
    (ml.getD a dp).bat ∈ ml.map Player.bat := by
  rw [List.getD_eq_getElem ml dp ha]
  exact List.mem_map_of_mem _ (List.getElem_mem ha)

theorem fixStep_injOn (ml : List Player) (hmn : (ml.map Player.bat).Nodup)
    (x y : ℤ) (hx : 0 < x ∧ x ≤ (ml.length : ℤ)) (hy : 0 < y ∧ y ≤ (ml.length : ℤ))
    (heq : fixStep ml x = fixStep ml y) : x = y := by
  rw [fixStep, if_pos hx, fixStep, if_pos hy] at heq
  have hxa : (x - 1).toNat < ml.length := by omega
  have hya : (y - 1).toNat < ml.length := by omega
  have := getD_bat_inj ml hmn _ _ hxa hya heq
  omega

theorem miis_bats_nodup (team : List Player) (hn : (team.map Player.bat).Nodup) :
    ((miisOf team).map Player.bat).Nodup :=
  List.Nodup.sublist (List.Sublist.map _ (List.filter_sublist _)) hn

/-- Core termination result for the position-correction loop: on a team
with pairwise-distinct batting orders, running the loop from a non-Mii
player's batting order with fuel `miiCount + 1` succeeds. -/
theorem fixPos_isSome (team : List Player) (hn : (team.map Player.bat).Nodup)
    (p : Player) (hp : p ∈ team) (hnm : ¬76 < p.char) :
    (fixPosFuel (miisOf team) ((miisOf team).length + 1) p.bat).isSome = true := by
  by_contra hns
  have hnone : fixPosFuel (miisOf team) ((miisOf team).length + 1) p.bat = none := by
    cases hfx : fixPosFuel (miisOf team) ((miisOf team).length + 1) p.bat with
    | none => rfl
    | some v => rw [hfx] at hns; simp at hns
  set ml := miisOf team with hml
  have hall := fixPosFuel_none_iter ml _ _ hnone
  have hmn : (ml.map Player.bat).Nodup := miis_bats_nodup team hn
  have hnotin : p.bat ∉ ml.map Player.bat := by
    intro hmem
    obtain ⟨q, hq, hqb⟩ := List.mem_map.mp hmem
    have hqf := List.mem_filter.mp (hml ▸ hq)
    have hqp : q = p := List.inj_on_of_nodup_map hn hqf.1 hp hqb
    have : 76 < p.char := by
      have := hqf.2
      rw [hqp] at this
      simpa using this
    exact hnm this
  have hmaps : ∀ k ∈ Finset.range (ml.length + 1),
      (fixStep ml)^[k] p.bat ∈ Finset.Icc 1 (ml.length : ℤ) := by
    intro k hk
    have hk' : k ≤ ml.length + 1 := by
      have := Finset.mem_range.mp hk
      omega
    have := hall k hk'
    rw [Finset.mem_Icc]
    omega
  have hcard : (Finset.Icc (1 : ℤ) (ml.length : ℤ)).card < (Finset.range (ml.length + 1)).card := by
    rw [Finset.card_range, Int.card_Icc]
    omega
  obtain ⟨a, ha, b, hb, hab, heq⟩ :=
    Finset.exists_ne_map_eq_of_card_lt_of_maps_to hcard hmaps
  have key : ∀ u v : ℕ, u < v → v ≤ ml.length + 1 →
      (fixStep ml)^[u] p.bat = (fixStep ml)^[v] p.bat → False := by
    intro u v huv hvm hiter
    have hwalk : ∀ j ≤ u, (fixStep ml)^[u - j] p.bat = (fixStep ml)^[v - j] p.bat := by
      intro j
      induction j with
      | zero => intro _; simpa using hiter
      | succ j ihj =>
        intro hja
        have hprev := ihj (by omega)
        have e1 : u - j = (u - (j + 1)) + 1 := by omega
        have e2 : v - j = (v - (j + 1)) + 1 := by omega
        rw [e1, e2, Function.iterate_succ_apply', Function.iterate_succ_apply'] at hprev
        exact fixStep_injOn ml hmn _ _
          (hall (u - (j + 1)) (by omega)) (hall (v - (j + 1)) (by omega)) hprev
    have h0 := hwalk u le_rfl
    rw [Nat.sub_self, Function.iterate_zero, id] at h0
    have e3 : v - u = (v - u - 1) + 1 := by omega
    rw [e3, Function.iterate_succ_apply'] at h0
    have hin := hall (v - u - 1) (by omega)
    have hmem : p.bat ∈ ml.map Player.bat := by
      rw [h0, fixStep, if_pos hin]
      exact getD_bat_mem ml _ (by omega)
    exact hnotin hmem
  have hbm : b ≤ ml.length + 1 := by
    have := Finset.mem_range.mp hb
    omega
  have ham : a ≤ ml.length + 1 := by
    have := Finset.mem_range.mp ha
    omega
  rcases lt_or_gt_of_ne hab with h | h
  · exact key a b h hbm heq
  · exact key b a h ham heq.symm

theorem wrC4_shape (s : GenSt) (w1 w2 w3 w4 : ℤ) :
    (wrC (wrC (wrC (wrC s w1) w2) w3) w4).writes
      = s.writes ++ [(s.currLine, w1), (s.currLine + 4, w2), (s.currLine + 4 + 4, w3),
          (s.currLine + 4 + 4 + 4, w4)]
    ∧ (wrC (wrC (wrC (wrC s w1) w2) w3) w4).countline = s.countline + 4
    ∧ (wrC (wrC (wrC (wrC s w1) w2) w3) w4).currLine = s.currLine + 16 := by
  refine ⟨?_, ?_, ?_⟩
  · simp [wrC, wr, List.append_assoc]
  · simp [wrC, wr]
  · simp [wrC, wr]

theorem emitPlayer_shape (ml : List Player) (p : Player) (mp : ℕ) (s : GenSt)
    (r : ℕ × GenSt) (h : emitPlayer ml p mp s = some r) :
    ∃ ws4 : List (ℕ × ℤ), r.2.writes = s.writes ++ ws4 ∧ ws4.length = 4
      ∧ r.2.countline = s.countline + 4 ∧ r.2.currLine = s.currLine + 16 := by
  unfold emitPlayer at h
  by_cases hc : 76 < p.char
  · rw [if_pos hc] at h
    cases h
    obtain ⟨h1, h2, h3⟩ := wrC4_shape s 0x60000000 0x60000000 (0x39E00000 + p.field)
      (0x99E3000C + (mp : ℤ) * 0x10)
    exact ⟨_, h1, rfl, h2, h3⟩
  · rw [if_neg hc] at h
    cases hfx : fixPosFuel ml (ml.length + 1) p.bat with
    | none => rw [hfx] at h; exact absurd h (by simp)
    | some pos =>
      rw [hfx] at h
      cases h
      obtain ⟨h1, h2, h3⟩ := wrC4_shape s (0x39E00000 + p.char) (0x99E30001 + pos * 0x10)
        (0x39E00000 + p.field) (0x99E3000C + pos * 0x10)
      exact ⟨_, h1, rfl, h2, h3⟩

theorem emitTeam_shape (ml : List Player) :
    ∀ (l : List Player) (mp : ℕ) (s s' : GenSt),
      emitTeam ml l mp s = some s' →
      ∃ ws, s'.writes = s.writes ++ ws ∧ ws.length = 4 * l.length
        ∧ s'.countline = s.countline + 4 * l.length
        ∧ s'.currLine = s.currLine + 16 * l.length := by
  intro l
  induction l with
  | nil =>
    intro mp s s' h
    cases h
    exact ⟨[], by simp, by simp, by simp, by simp⟩
  | cons p rest ih =>
    intro mp s s' h
    simp only [emitTeam] at h
    cases hep : emitPlayer ml p mp s with
    | none => rw [hep] at h; exact absurd h (by simp)
    | some r =>
      rw [hep] at h
      obtain ⟨ws4, hw4, hl4, hc4, hcl4⟩ := emitPlayer_shape ml p mp s r hep
      obtain ⟨ws, hw, hl, hc, hcl⟩ := ih r.1 r.2 s' h
      refine ⟨ws4 ++ ws, ?_, ?_, ?_, ?_⟩
      · rw [hw, hw4, List.append_assoc]
      · rw [List.length_append, hl4, hl]
        simp [List.length_cons]
        omega
      · rw [hc, hc4]
        simp [List.length_cons]
        omega
      · rw [hcl, hcl4]
        simp [List.length_cons]
        omega

theorem emitTeam_isSome (ml : List Player) :
    ∀ (l : List Player) (mp : ℕ) (s : GenSt),
      (∀ p ∈ l, 76 < p.char ∨ (fixPosFuel ml (ml.length + 1) p.bat).isSome = true) →
      (emitTeam ml l mp s).isSome = true := by
  intro l
  induction l with
  | nil => intro mp s _; rfl
  | cons p rest ih =>
    intro mp s hall
    simp only [emitTeam]
    have hep : ∃ r, emitPlayer ml p mp s = some r := by
      unfold emitPlayer
      by_cases hc : 76 < p.char
      · rw [if_pos hc]
        exact ⟨_, rfl⟩
      · rw [if_neg hc]
        rcases hall p (List.mem_cons_self p rest) with hmii | hfix
        · exact absurd hmii hc
        · obtain ⟨v, hv⟩ := Option.isSome_iff_exists.mp hfix
          rw [hv]
          exact ⟨_, rfl⟩
    obtain ⟨r, hr⟩ := hep
    rw [hr]
    exact ih r.1 r.2 (fun q hq => hall q (List.mem_cons_of_mem _ hq))

theorem generate_isSome (t1 t2 : List Player)
    (h1 : ∀ p ∈ t1, 76 < p.char
      ∨ (fixPosFuel (miisOf t1) ((miisOf t1).length + 1) p.bat).isSome = true)
    (h2 : ∀ p ∈ t2, 76 < p.char
      ∨ (fixPosFuel (miisOf t2) ((miisOf t2).length + 1) p.bat).isSome = true) :
    (generate_whodeyy_code t1 t2).isSome = true := by
  simp only [generate_whodeyy_code]
  obtain ⟨s2, hs2⟩ := Option.isSome_iff_exists.mp (emitTeam_isSome (miisOf t1) t1 1 _ h1)
  rw [hs2]
  dsimp only
  obtain ⟨s4, hs4⟩ := Option.isSome_iff_exists.mp (emitTeam_isSome (miisOf t2) t2 1 _ h2)
  rw [hs4]
  rfl

/-- C2: on any team whose batting orders form a permutation of `{0..8}`,
the position-correction loop of `generate_whodeyy_code`, started from a
non-Mii player's batting order, terminates within `miiCount + 1` steps
(fuel `miiCount + 1` succeeds), and consequently the compiler is total on
validated team pairs. -/
theorem c2_fixpos_terminates :
    (∀ (team : List Player) (p : Player),
      (team.map Player.bat).Perm range9L → p ∈ team → p.char ≤ 76 →
      (fixPosFuel (miisOf team) ((miisOf team).length + 1) p.bat).isSome = true)
    ∧ (∀ t1 t2 : List Player,
      (t1.map Player.bat).Perm range9L → (t2.map Player.bat).Perm range9L →
      (generate_whodeyy_code t1 t2).isSome = true) := by
  have main : ∀ (team : List Player) (p : Player),
      (team.map Player.bat).Perm range9L → p ∈ team → p.char ≤ 76 →
      (fixPosFuel (miisOf team) ((miisOf team).length + 1) p.bat).isSome = true := by
    intro team p hperm hp hc
    exact fixPos_isSome team (hperm.nodup_iff.mpr range9L_nodup) p hp (by omega)
  refine ⟨main, ?_⟩
  intro t1 t2 hp1 hp2
  refine generate_isSome t1 t2 ?_ ?_
  · intro p hp
    by_cases hc : 76 < p.char
    · exact Or.inl hc
    · exact Or.inr (main t1 p hp1 hp (by omega))
  · intro p hp
    by_cases hc : 76 < p.char
    · exact Or.inl hc
    · exact Or.inr (main t2 p hp2 hp (by omega))

theorem c2_fixpos_terminates_witness :
    ((teamA.map Player.bat).Perm range9L ∧ (⟨0, 0, 0⟩ : Player) ∈ teamA
      ∧ (⟨0, 0, 0⟩ : Player).char ≤ 76)
    ∧ (fixPosFuel (miisOf teamA) ((miisOf teamA).length + 1) (⟨0, 0, 0⟩ : Player).bat).isSome
        = true
    ∧ (generate_whodeyy_code teamA teamC3).isSome = true :=
  ⟨⟨by decide, by decide, by decide⟩,
    c2_fixpos_terminates.1 teamA ⟨0, 0, 0⟩ (by decide) (by decide) (by decide),
    c2_fixpos_terminates.2 teamA teamC3 (by decide) (by decide)⟩

theorem wrC_writes (s : GenSt) (w : ℤ) : (wrC s w).writes = s.writes ++ [(s.currLine, w)] := rfl

theorem wrC_countline (s : GenSt) (w : ℤ) : (wrC s w).countline = s.countline + 1 := rfl

theorem wrC_currLine (s : GenSt) (w : ℤ) : (wrC s w).currLine = s.currLine + 4 := rfl

theorem fixPosFuel_nil (f : ℕ) (pos : ℤ) : fixPosFuel [] (f + 1) pos = some pos := by
  have hc : ¬(0 < pos ∧ pos ≤ (([] : List Player).length : ℤ)) := by
    rintro ⟨h1, h2⟩
    simp at h2
    omega
  simp only [fixPosFuel, if_neg hc]

theorem padLoop_77 (s : GenSt) (h : s.countline = 77) :
    padLoop 4 s = wrC (wrC s 0x60000000) 0x60000000 := by
  have h1 : s.countline % 4 ≠ 3 := by omega
  have h2 : (wrC s 0x60000000).countline % 4 ≠ 3 := by
    rw [wrC_countline, h]
    omega
  have h3 : ¬(wrC (wrC s 0x60000000) 0x60000000).countline % 4 ≠ 3 := by
    rw [wrC_countline, wrC_countline, h]
    omega
  show padLoop (3 + 1) s = _
  rw [padLoop, if_pos h1]
  show padLoop (2 + 1) _ = _
  rw [padLoop, if_pos h2]
  show padLoop (1 + 1) _ = _
  rw [padLoop, if_neg h3]

/-- C1: for every pair of validated 9-player teams — away-team Miis allowed
or not, since each player emits exactly four counted words — the compiler
emits exactly `9 * 4` words for the away player block followed by the fixed
transition pair `0x39C00001` / `0x48000098` (in particular for a Mii-free
away team); after the home block it pads with `0x60000000` no-ops until the
instruction count is `3 mod 4` (two no-ops, count 79 before the final
branch), and the metadata word written last at `0x800021f4` equals the
final instruction count (80) integer-divided by 2. -/
theorem c1_compiler_emission :
    ∀ t1 t2 : List Player,
      (t1.map Player.bat).Perm range9L → (t1.map Player.field).Perm range9L →
      (t2.map Player.bat).Perm range9L → (t2.map Player.field).Perm range9L →
      ∃ (ws : List (ℕ × ℤ)) (away home : List ℤ) (fb : ℤ),
        generate_whodeyy_code t1 t2 = some (ws, 80)
        ∧ away.length = 9 * 4 ∧ home.length = 9 * 4
        ∧ ws.map Prod.snd
            = [0x4bf97324, 0xC206AED4, 0x00000000, 0x2C0E0001, 0x4182009C]
              ++ away ++ [0x39C00001, 0x48000098] ++ home ++ [0x39C00000]
              ++ List.replicate 2 0x60000000 ++ [fb, ((80 / 2 : ℕ) : ℤ)]
        ∧ ws.getLast? = some (0x800021f4, ((80 / 2 : ℕ) : ℤ))
        ∧ (2 + 9 * 4 + 2 + 9 * 4 + 1 + 2) % 4 = 3 := by
  intro t1 t2 hb1 hf1 hb2 hf2
  have hlen1 : t1.length = 9 := by
    have h := hb1.length_eq
    simpa [range9L] using h
  have hlen2 : t2.length = 9 := by
    have h := hb2.length_eq
    simpa [range9L] using h
  have ha : ∀ p ∈ t1, 76 < p.char
      ∨ (fixPosFuel (miisOf t1) ((miisOf t1).length + 1) p.bat).isSome = true := by
    intro p hp
    by_cases hc : 76 < p.char
    · exact Or.inl hc
    · exact Or.inr (fixPos_isSome t1 (hb1.nodup_iff.mpr range9L_nodup) p hp hc)
  have hh : ∀ p ∈ t2, 76 < p.char
      ∨ (fixPosFuel (miisOf t2) ((miisOf t2).length + 1) p.bat).isSome = true := by
    intro p hp
    by_cases hc : 76 < p.char
    · exact Or.inl hc
    · exact Or.inr (fixPos_isSome t2 (hb2.nodup_iff.mpr range9L_nodup) p hp hc)
  simp only [generate_whodeyy_code]
  obtain ⟨s2, hs2⟩ := Option.isSome_iff_exists.mp (emitTeam_isSome (miisOf t1) t1 1 _ ha)
  rw [hs2]
  dsimp only
  obtain ⟨s4, hs4⟩ := Option.isSome_iff_exists.mp (emitTeam_isSome (miisOf t2) t2 1 _ hh)
  rw [hs4]
  dsimp only
  obtain ⟨ws1, hw1, hl1, hc1, hcl1⟩ := emitTeam_shape (miisOf t1) t1 1 _ s2 hs2
  obtain ⟨ws2, hw2, hl2, hc2, hcl2⟩ := emitTeam_shape (miisOf t2) t2 1 _ s4 hs4
  have hcount2 : s2.countline = 38 := by
    rw [hc1, hlen1]
    norm_num [wrC, wr]
  have hcount4 : s4.countline = 76 := by
    rw [hc2, hlen2]
    simp only [wrC_countline]
    omega
  have hs5c : (wrC s4 (0x39C00000 : ℤ)).countline = 77 := by
    rw [wrC_countline]
    omega
  rw [padLoop_77 (wrC s4 0x39C00000) hs5c]
  have hcount80 : ∀ w : ℤ,
      (wrC (wrC (wrC (wrC s4 0x39C00000) 0x60000000) 0x60000000) w).countline = 80 := by
    intro w
    simp only [wrC_countline]
    omega
  rw [hcount80]
  have hcurr2 : s2.currLine = 2147492496 := by
    rw [hcl1, hlen1]
    norm_num [wrC, wr]
  have hcurr4 : s4.currLine = 2147492648 := by
    rw [hcl2, hlen2]
    simp only [wrC_currLine]
    omega
  have hcl6 : (wrC (wrC (wrC s4 (0x39C00000 : ℤ)) 0x60000000) 0x60000000).currLine
      = 2147492660 := by
    simp only [wrC_currLine]
    omega
  rw [hcl6]
  refine ⟨_, ws1.map Prod.snd, ws2.map Prod.snd, 1208388516, rfl, ?_, ?_, ?_, ?_, by norm_num⟩
  · rw [List.length_map, hl1, hlen1]
  · rw [List.length_map, hl2, hlen2]
  · simp only [wrC_writes, wrC_currLine, hw2, hw1]
    simp [wrC, wr, List.map_append, List.append_assoc]
  · exact List.getLast?_concat _

theorem c1_compiler_emission_witness :
    ((teamC3.map Player.bat).Perm range9L ∧ (teamC3.map Player.field).Perm range9L
      ∧ (teamA.map Player.bat).Perm range9L ∧ (teamA.map Player.field).Perm range9L)
    ∧ ∃ (ws : List (ℕ × ℤ)) (away home : List ℤ) (fb : ℤ),
        generate_whodeyy_code teamC3 teamA = some (ws, 80)
        ∧ away.length = 9 * 4 ∧ home.length = 9 * 4
        ∧ ws.map Prod.snd
            = [0x4bf97324, 0xC206AED4, 0x00000000, 0x2C0E0001, 0x4182009C]
              ++ away ++ [0x39C00001, 0x48000098] ++ home ++ [0x39C00000]
              ++ List.replicate 2 0x60000000 ++ [fb, ((80 / 2 : ℕ) : ℤ)]
        ∧ ws.getLast? = some (0x800021f4, ((80 / 2 : ℕ) : ℤ))
        ∧ (2 + 9 * 4 + 2 + 9 * 4 + 1 + 2) % 4 = 3 :=
  ⟨⟨by decide, by decide, by decide, by decide⟩,
    c1_compiler_emission teamC3 teamA (by decide) (by decide) (by decide) (by decide)⟩

theorem swapModel_length (l : List Player) (i j : ℕ) : (swapModel l i j).length = l.length := by
  simp [swapModel]

theorem swapModel_getD (l : List Player) (i j : ℕ) (hij : i ≠ j) (hi : i < l.length)
    (hj : j < l.length) :
    ∀ k, k < l.length →
      (swapModel l i j).getD k dp
        = l.getD (if k = i then j else if k = j then i else k) dp := by
  intro k hk
  have hks : k < ((l.set i (l.getD j dp)).set j (l.getD i dp)).length := by
    simpa using hk
  rw [show swapModel l i j = (l.set i (l.getD j dp)).set j (l.getD i dp) from rfl,
    List.getD_eq_getElem _ dp hks]
  by_cases hkj : k = j
  · subst hkj
    rw [List.getElem_set_self, if_neg (fun h => hij h.symm), if_pos rfl]
  · rw [List.getElem_set_ne (fun h => hkj h.symm)]
    by_cases hki : k = i
    · subst hki
      rw [List.getElem_set_self, if_pos rfl]
    · rw [List.getElem_set_ne (fun h => hki h.symm), ← List.getD_eq_getElem l dp hk,
        if_neg hki, if_neg hkj]

theorem swapModel_inj (l : List Player) (i j : ℕ) (hij : i ≠ j) (hi : i < l.length)
    (hj : j < l.length)
    (hinj : ∀ a b, a < l.length → b < l.length →
      (l.getD a dp).bat = (l.getD b dp).bat → a = b) :
    ∀ a b, a < (swapModel l i j).length → b < (swapModel l i j).length →
      ((swapModel l i j).getD a dp).bat = ((swapModel l i j).getD b dp).bat → a = b := by
  intro a b ha hb heq
  rw [swapModel_length] at ha hb
  rw [swapModel_getD l i j hij hi hj a ha, swapModel_getD l i j hij hi hj b hb] at heq
  have hsa : (if a = i then j else if a = j then i else a) < l.length := by
    split_ifs <;> omega
  have hsb : (if b = i then j else if b = j then i else b) < l.length := by
    split_ifs <;> omega
  have hab := hinj _ _ hsa hsb heq
  split_ifs at hab <;> omega

theorem goodCount_swap (l : List Player) (i : ℕ) (hi : i < l.length)
    (hinj : ∀ a b, a < l.length → b < l.length →
      (l.getD a dp).bat = (l.getD b dp).bat → a = b)
    (j : ℕ) (hij : i < j) (hj : j < l.length)
    (hbat : (l.getD i dp).bat = (j : ℤ) + 1) :
    goodCount l < goodCount (swapModel l i j) ∧ goodCount (swapModel l i j) ≤ l.length := by
  have hne : i ≠ j := by omega
  have hjbad : (l.getD j dp).bat ≠ (j : ℤ) + 1 := by
    intro hcon
    have := hinj i j hi hj (by rw [hbat, hcon])
    omega
  have hibad : (l.getD i dp).bat ≠ (i : ℤ) + 1 := by
    rw [hbat]
    intro hcon
    omega
  have hsub : ((Finset.range l.length).filter (fun k => (l.getD k dp).bat = (k : ℤ) + 1))
      ⊂ ((Finset.range l.length).filter
          (fun k => ((swapModel l i j).getD k dp).bat = (k : ℤ) + 1)) := by
    rw [Finset.ssubset_def]
    constructor
    · intro k hk
      rw [Finset.mem_filter] at hk ⊢
      obtain ⟨hkr, hkg⟩ := hk
      have hkl : k < l.length := Finset.mem_range.mp hkr
      have hki : k ≠ i := fun h => hibad (h ▸ hkg)
      have hkj : k ≠ j := fun h => hjbad (h ▸ hkg)
      refine ⟨hkr, ?_⟩
      rw [swapModel_getD l i j hne hi hj k hkl, if_neg hki, if_neg hkj]
      exact hkg
    · intro hcon
      have hjmem : j ∈ (Finset.range l.length).filter
          (fun k => ((swapModel l i j).getD k dp).bat = (k : ℤ) + 1) := by
        rw [Finset.mem_filter]
        refine ⟨Finset.mem_range.mpr hj, ?_⟩
        rw [swapModel_getD l i j hne hi hj j hj, if_neg (fun h => hne h.symm), if_pos rfl]
        exact hbat
      have hjl := hcon hjmem
      rw [Finset.mem_filter] at hjl
      exact hjbad hjl.2
  constructor
  · unfold goodCount
    rw [swapModel_length]
    exact Finset.card_lt_card hsub
  · unfold goodCount
    rw [swapModel_length]
    have hle := Finset.card_filter_le (Finset.range l.length)
      (fun k => ((swapModel l i j).getD k dp).bat = (k : ℤ) + 1)
    rw [Finset.card_range] at hle
    exact hle

theorem lineupLoopF_terminates :
    ∀ (fuel : ℕ) (ml : List Player) (pos : ℤ) (i : ℕ) (sw : List (ℤ × ℤ)) (sc : ℕ),
      (∀ a b, a < ml.length → b < ml.length →
        (ml.getD a dp).bat = (ml.getD b dp).bat → a = b) →
      (ml.length - goodCount ml) + (ml.length - i) < fuel →
      ∃ out : List Player × List (ℤ × ℤ) × ℕ,
        lineupLoopF fuel ml pos i sw sc = some out
        ∧ out.2.2 ≤ sc + (ml.length - goodCount ml) := by
  intro fuel
  induction fuel with
  | zero =>
    intro ml pos i sw sc _ hfuel
    omega
  | succ fuel ih =>
    intro ml pos i sw sc hinj hfuel
    by_cases hi : i < ml.length
    · simp only [lineupLoopF, if_pos hi]
      by_cases hsw : (i : ℤ) + 1 < (ml.getD i dp).bat
          ∧ (ml.getD i dp).bat ≤ (ml.length : ℤ)
      · rw [if_pos hsw]
        set targ := (ml.getD i dp).bat with htarg
        set j := (targ - 1).toNat with hjdef
        have hjl : j < ml.length := by omega
        have hijlt : i < j := by omega
        have hbat : (ml.getD i dp).bat = (j : ℤ) + 1 := by
          rw [← htarg]
          omega
        have hinj' := swapModel_inj ml i j (by omega) hi hjl hinj
        obtain ⟨hg1, hg2⟩ := goodCount_swap ml i hi hinj j hijlt hjl hbat
        have hlen' : (swapModel ml i j).length = ml.length := swapModel_length ml i j
        have hfuel' : ((swapModel ml i j).length - goodCount (swapModel ml i j))
            + ((swapModel ml i j).length - i) < fuel := by
          rw [hlen']
          omega
        obtain ⟨out, hout, hsc⟩ := ih (swapModel ml i j) targ i
          (sw ++ [((i : ℤ) + 1, targ)]) (sc + 1) hinj' hfuel'
        refine ⟨out, hout, ?_⟩
        rw [hlen'] at hsc
        omega
      · rw [if_neg hsw]
        obtain ⟨out, hout, hsc⟩ := ih ml ((ml.getD i dp).bat) (i + 1)
          (sw ++ [((i : ℤ) + 1, (ml.getD i dp).bat)]) sc hinj (by omega)
        exact ⟨out, hout, hsc⟩
    · simp only [lineupLoopF, if_neg hi]
      exact ⟨(ml, sw, sc), rfl, Nat.le_add_right sc _⟩

/-- C4: for the Mii sub-list of any validated team (pairwise-distinct
batting orders in 0..8), the main loop of `lineup_code_rev` terminates
(fuel `2 * len + 1` succeeds) and performs at most `len` model-swap
iterations. -/
theorem c4_lineup_terminates :
    ∀ team : List Player,
      (team.map Player.bat).Nodup → (∀ p ∈ team, 0 ≤ p.bat ∧ p.bat ≤ 8) →
      ∃ out : List Player × List (ℤ × ℤ) × ℕ,
        lineup_code_rev team = some out ∧ out.2.2 ≤ (miisOf team).length := by
  intro team hn _
  have hinj := getD_bat_inj (miisOf team) (miis_bats_nodup team hn)
  obtain ⟨out, hout, hsc⟩ := lineupLoopF_terminates (2 * (miisOf team).length + 1)
    (miisOf team) 0 0 [] 0 hinj (by omega)
  exact ⟨out, hout, by omega⟩

theorem c4_lineup_terminates_witness :
    ((teamC3.map Player.bat).Nodup ∧ (∀ p ∈ teamC3, 0 ≤ p.bat ∧ p.bat ≤ 8))
    ∧ ∃ out : List Player × List (ℤ × ℤ) × ℕ,
        lineup_code_rev teamC3 = some out ∧ out.2.2 ≤ (miisOf teamC3).length :=
  ⟨⟨by decide, by decide⟩, c4_lineup_terminates teamC3 (by decide) (by decide)⟩
